import Mathlib

/-!
Verification of the legal-document-splitter pipeline against its
natural-language specification.  The Python sources (`processor.py`,
`extractors.py`, `main.py`, `models.py`) are shallowly embedded below:
pure helpers become Lean functions over `String`/`List Char`, the
stateful segmentation loop becomes an explicit fold over a state record,
and the background job worker becomes a function from stage outcomes to
the trace of job-registry states it writes.  External collaborators
(the spaCy linguistic model, the DOCX/PDF readers, the filesystem) are
parameters of the embedded functions: sentence streams, token streams
and write outcomes are inputs, exactly at the boundary the spec draws.
-/

namespace LDS

/-! ## Character and string primitives (Python `str` semantics) -/

/-- Python `\s` / `str.strip` whitespace (the ASCII whitespace class). -/
def pyIsSpace (c : Char) : Bool :=
  c = ' ' || c = '\t' || c = '\n' || c = '\r' || c = '\x0b' || c = '\x0c'

/-- Python `\d`. -/
def isDigitChar (c : Char) : Bool := '0' ≤ c && c ≤ '9'

/-- Lower-casing as used by `str.lower()` / `re.IGNORECASE`, covering the
ASCII and Cyrillic letters the program works with. -/
def lowerChar (c : Char) : Char :=
  if 'A' ≤ c && c ≤ 'Z' then Char.ofNat (c.toNat + 32)
  else if 0x410 ≤ c.toNat && c.toNat ≤ 0x42F then Char.ofNat (c.toNat + 0x20)
  else if c.toNat = 0x401 then Char.ofNat 0x451
  else c

/-- `str.strip()` on a character list. -/
def stripChars (l : List Char) : List Char :=
  ((l.dropWhile pyIsSpace).reverse.dropWhile pyIsSpace).reverse

/-- `str.strip()`. -/
def pyStrip (s : String) : String := ⟨stripChars s.data⟩

/-- `str.lower()`. -/
def pyLower (s : String) : String := ⟨s.data.map lowerChar⟩

/-! ## The heading regexes of `DocumentProcessor.__init__`

`article_start_pattern  = ^\s*Статья\s*\d+(?:\.\d+)*\.?\s*(.*)`
`section_start_pattern  = ^\s*Раздел\s+\d+\.?\s*(.*)`
`chapter_start_pattern  = ^\s*Глава\s+\d+\.?\s*(.*)`
`paragraph_start_pattern = ^\s*§\s+\d+\.?\s*(.*)`
all compiled with `re.IGNORECASE`.  Each regex is deterministic (each
greedy piece's first character class is disjoint from its successor's),
so a direct recursive parser has exactly the regex's semantics.
`group(0)` runs from the start of the string to the end of `(.*)`,
i.e. up to the first newline after the structural part. -/

/-- Case-insensitive literal keyword match; returns the rest on success. -/
def matchKeyword : List Char → List Char → Option (List Char)
  | [], l => some l
  | _ :: _, [] => none
  | k :: ks, c :: cs => if lowerChar c = lowerChar k then matchKeyword ks cs else none

/-- `(?:\.\d+)*` with explicit fuel (each round consumes at least two
characters, so `l.length` rounds always suffice): consume dot-digit
groups as long as a dot is followed by a digit. -/
def dottedTailGo : Nat → List Char → List Char
  | fuel + 1, '.' :: c :: cs =>
    if isDigitChar c then dottedTailGo fuel (cs.dropWhile isDigitChar)
    else '.' :: c :: cs
  | _, l => l

/-- `(?:\.\d+)*`. -/
def dottedTail (l : List Char) : List Char := dottedTailGo l.length l

/-- `\.?`. -/
def optDot : List Char → List Char
  | '.' :: rest => rest
  | l => l

/-- `re.match` of a heading pattern `^\s* kw (\s+ or \s*) \d+ [dotted] \.? \s* (.*)`
against `full`; returns `group(0)` on success.  `reqSpace` selects `\s+`
over `\s*` between the keyword and the number, `dotted` enables
`(?:\.\d+)*` after the number. -/
def headingGroup0 (kw : List Char) (reqSpace dotted : Bool) (full : List Char) :
    Option (List Char) :=
  match matchKeyword kw (full.dropWhile pyIsSpace) with
  | none => none
  | some l1 =>
    if reqSpace && (l1.takeWhile pyIsSpace).isEmpty then none
    else
      let l2 := l1.dropWhile pyIsSpace
      if (l2.takeWhile isDigitChar).isEmpty then none
      else
        let l3 := l2.dropWhile isDigitChar
        let l4 := optDot (if dotted then dottedTail l3 else l3)
        let l6 := l4.dropWhile pyIsSpace
        let rest := l6.dropWhile (fun c => c ≠ '\n')
        some (full.take (full.length - rest.length))

/-- `section_start_pattern.match`, as `group(0)`. -/
def sectionGroup0 (l : List Char) : Option (List Char) :=
  headingGroup0 "Раздел".data true false l

/-- `chapter_start_pattern.match`, as `group(0)`. -/
def chapterGroup0 (l : List Char) : Option (List Char) :=
  headingGroup0 "Глава".data true false l

/-- `paragraph_start_pattern.match`, as `group(0)`. -/
def paragraphGroup0 (l : List Char) : Option (List Char) :=
  headingGroup0 "§".data true false l

/-- `article_start_pattern.match`, as `group(0)`. -/
def articleGroup0 (l : List Char) : Option (List Char) :=
  headingGroup0 "Статья".data false true l

/-! ## The Article data model

A LangChain `Document` as the pipeline builds it: `page_content` plus the
metadata keys `article_title`, and optionally `section_title`,
`chapter_title`, `paragraph_title`, `keywords`, `topic`. -/

structure Article where
  article_title : String
  content : String
  section_title : Option String := none
  chapter_title : Option String := none
  paragraph_title : Option String := none
  keywords : List String := []
  topic : String := ""
deriving DecidableEq

/-- Python truthiness of an optional string (`if current_section_title:`):
`None` and `""` are falsy. -/
def optTruthy : Option String → Option String
  | none => none
  | some s => if s = "" then none else some s

/-- Python truthiness of `current_article_full_title`. -/
def titleTruthy : Option String → Bool
  | none => false
  | some s => s != ""

/-- `"\n".join(...)` at the character level. -/
def joinNLData : List String → List Char
  | [] => []
  | [s] => s.data
  | s :: rest => s.data ++ '\n' :: joinNLData rest

/-! ## `segment_into_articles` (processor.py lines 58-133)

The spaCy sentencizer is external: the embedded segmenter consumes the
ordered sentence stream directly, mirroring the `for sent in
spacy_doc.sents` loop (which strips each sentence and skips empties). -/

structure SegState where
  articleTitle : Option String := none
  buffer : List String := []
  sectionT : Option String := none
  chapterT : Option String := none
  paragraphT : Option String := none
  articles : List Article := []

/-- `add_article_to_list` (processor.py lines 78-98): flush the current
accumulator if both title and buffer are truthy, then clear them.  The
three carried hierarchical fields are untouched. -/
def add_article_to_list (st : SegState) : SegState :=
  let st' :=
    if titleTruthy st.articleTitle && !st.buffer.isEmpty then
      { st with articles := st.articles ++
          [{ article_title := st.articleTitle.getD ""
           , content := ⟨stripChars (joinNLData st.buffer)⟩
           , section_title := optTruthy st.sectionT
           , chapter_title := optTruthy st.chapterT
           , paragraph_title := optTruthy st.paragraphT }] }
    else st
  { st' with articleTitle := none, buffer := [] }

/-- One iteration of the sentence loop (processor.py lines 100-128). -/
def stepSentence (st : SegState) (raw : String) : SegState :=
  let sent := pyStrip raw
  if sent = "" then st
  else
    match sectionGroup0 sent.data with
    | some g0 =>
      let st1 := add_article_to_list st
      { st1 with sectionT := some ⟨stripChars g0⟩, chapterT := none, paragraphT := none }
    | none =>
      match chapterGroup0 sent.data with
      | some g0 =>
        let st1 := add_article_to_list st
        { st1 with chapterT := some ⟨stripChars g0⟩, paragraphT := none }
      | none =>
        match paragraphGroup0 sent.data with
        | some g0 =>
          let st1 := add_article_to_list st
          { st1 with paragraphT := some ⟨stripChars g0⟩ }
        | none =>
          match articleGroup0 sent.data with
          | some g0 =>
            let st1 := add_article_to_list st
            { st1 with articleTitle := some ⟨stripChars g0⟩, buffer := [sent] }
          | none =>
            if titleTruthy st.articleTitle then
              { st with buffer := st.buffer ++ [sent] }
            else st

/-- `segment_into_articles` on the sentence stream the linguistic service
supplies: run the loop from the empty state, then the final flush. -/
def segment_into_articles (sents : List String) : List Article :=
  (add_article_to_list (sents.foldl stepSentence {})).articles

/-! ## Facts about `str.strip` -/

theorem dropWhile_head_false {p : Char → Bool} :
    ∀ {l : List Char} {c : Char} {t : List Char},
      l.dropWhile p = c :: t → p c = false := by
  intro l
  induction l with
  | nil => intro c t h; simp at h
  | cons a l ih =>
    intro c t h
    rw [List.dropWhile_cons] at h
    by_cases hp : p a = true
    · rw [if_pos hp] at h; exact ih h
    · rw [if_neg hp] at h
      injection h with h1 _
      subst h1
      simpa using hp

theorem dropWhile_append_singleton {p : Char → Bool} {c : Char} (hc : p c = false)
    (xs : List Char) : (xs ++ [c]).dropWhile p = xs.dropWhile p ++ [c] := by
  induction xs with
  | nil => simp [List.dropWhile_cons, hc]
  | cons a l ih =>
    simp only [List.cons_append, List.dropWhile_cons]
    by_cases hp : p a = true
    · rw [if_pos hp, if_pos hp, ih]
    · rw [if_neg hp, if_neg hp]; rfl

theorem stripChars_of_dropWhile {l : List Char} {c : Char} {t : List Char}
    (h : l.dropWhile pyIsSpace = c :: t) :
    stripChars l = c :: (t.reverse.dropWhile pyIsSpace).reverse := by
  have hc : pyIsSpace c = false := dropWhile_head_false h
  unfold stripChars
  rw [h, List.reverse_cons, dropWhile_append_singleton hc, List.reverse_append]
  simp

theorem stripChars_cons_ne_nil {c : Char} {X : List Char} (hc : pyIsSpace c = false) :
    stripChars (c :: X) ≠ [] := by
  have h : (c :: X).dropWhile pyIsSpace = c :: X := by
    rw [List.dropWhile_cons, if_neg (by simp [hc])]
  rw [stripChars_of_dropWhile h]
  simp

/-- A string whose first character exists and is not whitespace. -/
def goodHead (s : String) : Prop :=
  ∃ c t, s.data = c :: t ∧ pyIsSpace c = false

theorem mk_ne_empty {l : List Char} (h : l ≠ []) : (⟨l⟩ : String) ≠ "" := by
  intro he
  exact h (congrArg String.data he)

theorem pyStrip_goodHead {r : String} (h : pyStrip r ≠ "") : goodHead (pyStrip r) := by
  cases hd : r.data.dropWhile pyIsSpace with
  | nil =>
    exact absurd (by simp [pyStrip, stripChars, hd]) h
  | cons c t =>
    exact ⟨c, (t.reverse.dropWhile pyIsSpace).reverse,
      by simp [pyStrip, stripChars_of_dropWhile hd], dropWhile_head_false hd⟩

theorem joinNLData_eq_cons {b : String} (rest : List String) {c : Char} {t : List Char}
    (hb : b.data = c :: t) : ∃ X, joinNLData (b :: rest) = c :: X := by
  cases rest with
  | nil => exact ⟨t, by simp [joinNLData, hb]⟩
  | cons b' r => exact ⟨t ++ '\n' :: joinNLData (b' :: r), by simp [joinNLData, hb]⟩

/-! ## The segmentation invariant (claim C1) -/

/-- Every buffered line is a stripped non-empty sentence, and every
emitted article has non-empty title and content. -/
def segInv (st : SegState) : Prop :=
  (∀ b ∈ st.buffer, goodHead b) ∧
  ∀ a ∈ st.articles, a.article_title ≠ "" ∧ a.content ≠ ""

theorem add_article_inv {st : SegState} (h : segInv st) :
    segInv (add_article_to_list st) := by
  obtain ⟨hbuf, harts⟩ := h
  unfold add_article_to_list
  by_cases hemit : (titleTruthy st.articleTitle && !st.buffer.isEmpty) = true
  · rw [if_pos hemit]
    refine ⟨by simp, ?_⟩
    intro a ha
    simp only [List.mem_append, List.mem_singleton] at ha
    rcases ha with ha | ha
    · exact harts a ha
    · subst ha
      constructor
      · rcases Bool.and_eq_true_iff.mp hemit with ⟨ht, _⟩
        cases hT : st.articleTitle with
        | none => rw [hT] at ht; simp [titleTruthy] at ht
        | some s =>
          rw [hT] at ht
          simpa [titleTruthy] using ht
      · rcases Bool.and_eq_true_iff.mp hemit with ⟨_, hb⟩
        cases hB : st.buffer with
        | nil => rw [hB] at hb; simp at hb
        | cons b rest =>
          obtain ⟨c, t, hbd, hc⟩ := hbuf b (by rw [hB]; exact List.mem_cons_self b rest)
          obtain ⟨X, hX⟩ := joinNLData_eq_cons rest hbd
          rw [hX]
          exact mk_ne_empty (stripChars_cons_ne_nil hc)
  · rw [if_neg hemit]
    exact ⟨by simp, harts⟩

theorem step_inv {st : SegState} {raw : String} (h : segInv st) :
    segInv (stepSentence st raw) := by
  obtain ⟨hbuf, harts⟩ := h
  unfold stepSentence
  by_cases hs : pyStrip raw = ""
  · rw [if_pos hs]; exact ⟨hbuf, harts⟩
  · rw [if_neg hs]
    have hstep := @add_article_inv st ⟨hbuf, harts⟩
    cases sectionGroup0 (pyStrip raw).data with
    | some g0 => exact ⟨by simpa using hstep.1, by simpa using hstep.2⟩
    | none =>
      cases chapterGroup0 (pyStrip raw).data with
      | some g0 => exact ⟨by simpa using hstep.1, by simpa using hstep.2⟩
      | none =>
        cases paragraphGroup0 (pyStrip raw).data with
        | some g0 => exact ⟨by simpa using hstep.1, by simpa using hstep.2⟩
        | none =>
          cases articleGroup0 (pyStrip raw).data with
          | some g0 =>
            refine ⟨?_, by simpa using hstep.2⟩
            intro b hb
            simp only [List.mem_singleton] at hb
            subst hb
            exact pyStrip_goodHead hs
          | none =>
            by_cases ht : titleTruthy st.articleTitle = true
            · rw [if_pos ht]
              refine ⟨?_, harts⟩
              intro b hb
              simp only [List.mem_append, List.mem_singleton] at hb
              rcases hb with hb | hb
              · exact hbuf b hb
              · subst hb; exact pyStrip_goodHead hs
            · rw [if_neg ht]; exact ⟨hbuf, harts⟩

theorem foldl_inv (sents : List String) :
    ∀ st, segInv st → segInv (sents.foldl stepSentence st) := by
  induction sents with
  | nil => intro st h; exact h
  | cons s rest ih => intro st h; exact ih _ (step_inv h)

/-- C1: For every input sentence stream, every Article emitted by
`segment_into_articles` has a non-empty title and non-empty content; and
`add_article_to_list` with a falsy title or empty buffer emits nothing. -/
theorem segment_articles_nonempty :
    (∀ sents : List String, ∀ a ∈ segment_into_articles sents,
        a.article_title ≠ "" ∧ a.content ≠ "") ∧
    (∀ st : SegState, titleTruthy st.articleTitle = false ∨ st.buffer = [] →
        (add_article_to_list st).articles = st.articles) := by
  constructor
  · intro sents a ha
    have hinv : segInv (sents.foldl stepSentence {}) :=
      foldl_inv sents {} ⟨by simp, by simp⟩
    exact (add_article_inv hinv).2 a ha
  · intro st hst
    unfold add_article_to_list
    have : (titleTruthy st.articleTitle && !st.buffer.isEmpty) = false := by
      rcases hst with h | h
      · simp [h]
      · simp [h]
    rw [this]
    simp

/-! ## Hierarchical carry-over (claim C2) -/

theorem add_article_hier (st : SegState) :
    (add_article_to_list st).sectionT = st.sectionT ∧
    (add_article_to_list st).chapterT = st.chapterT ∧
    (add_article_to_list st).paragraphT = st.paragraphT := by
  unfold add_article_to_list
  by_cases h : (titleTruthy st.articleTitle && !st.buffer.isEmpty) = true
  · rw [if_pos h]; exact ⟨rfl, rfl, rfl⟩
  · rw [if_neg h]; exact ⟨rfl, rfl, rfl⟩

theorem add_article_articles_carry (st : SegState) :
    ∀ a ∈ (add_article_to_list st).articles,
      a ∈ st.articles ∨ a.section_title = optTruthy st.sectionT := by
  unfold add_article_to_list
  by_cases h : (titleTruthy st.articleTitle && !st.buffer.isEmpty) = true
  · rw [if_pos h]
    intro a ha
    simp only [List.mem_append, List.mem_singleton] at ha
    rcases ha with ha | ha
    · exact Or.inl ha
    · subst ha; exact Or.inr rfl
  · rw [if_neg h]
    intro a ha
    exact Or.inl ha

theorem step_sectionT {st : SegState} {raw : String}
    (hsec : sectionGroup0 (pyStrip raw).data = none) :
    (stepSentence st raw).sectionT = st.sectionT := by
  have h := add_article_hier st
  by_cases hne : pyStrip raw = ""
  · simp [stepSentence, hne]
  · simp only [stepSentence, if_neg hne, hsec]
    cases chapterGroup0 (pyStrip raw).data with
    | some g0 => simpa using h.1
    | none =>
      cases paragraphGroup0 (pyStrip raw).data with
      | some g0 => simpa using h.1
      | none =>
        cases articleGroup0 (pyStrip raw).data with
        | some g0 => simpa using h.1
        | none =>
          by_cases ht : titleTruthy st.articleTitle = true
          · rw [if_pos ht]
          · rw [if_neg ht]

theorem step_articles_carry {st : SegState} {raw : String}
    (hsec : sectionGroup0 (pyStrip raw).data = none) :
    ∀ a ∈ (stepSentence st raw).articles,
      a ∈ st.articles ∨ a.section_title = optTruthy st.sectionT := by
  have hadd := add_article_articles_carry st
  by_cases hne : pyStrip raw = ""
  · simp only [stepSentence, if_pos hne]
    intro a ha
    exact Or.inl ha
  · simp only [stepSentence, if_neg hne, hsec]
    cases chapterGroup0 (pyStrip raw).data with
    | some g0 => intro a ha; exact hadd a (by simpa using ha)
    | none =>
      cases paragraphGroup0 (pyStrip raw).data with
      | some g0 => intro a ha; exact hadd a (by simpa using ha)
      | none =>
        cases articleGroup0 (pyStrip raw).data with
        | some g0 => intro a ha; exact hadd a (by simpa using ha)
        | none =>
          by_cases ht : titleTruthy st.articleTitle = true
          · rw [if_pos ht]; intro a ha; exact Or.inl ha
          · rw [if_neg ht]; intro a ha; exact Or.inl ha

theorem foldl_section_carry (sents : List String) :
    ∀ st sec, st.sectionT = some sec → sec ≠ "" →
      (∀ s ∈ sents, sectionGroup0 (pyStrip s).data = none) →
      (sents.foldl stepSentence st).sectionT = some sec ∧
      ∀ a ∈ (sents.foldl stepSentence st).articles,
        a ∈ st.articles ∨ a.section_title = some sec := by
  induction sents with
  | nil =>
    intro st sec h1 _ _
    exact ⟨h1, fun a ha => Or.inl ha⟩
  | cons s rest ih =>
    intro st sec h1 h2 h3
    have hsec := h3 s (List.mem_cons_self s rest)
    have hstep1 : (stepSentence st s).sectionT = some sec :=
      (step_sectionT hsec).trans h1
    have hrest := ih (stepSentence st s) sec hstep1 h2
      (fun x hx => h3 x (List.mem_cons_of_mem _ hx))
    refine ⟨hrest.1, ?_⟩
    intro a ha
    rcases hrest.2 a ha with h | h
    · rcases step_articles_carry hsec a h with h' | h'
      · exact Or.inl h'
      · right
        rw [h', h1]
        simp [optTruthy, h2]
    · exact Or.inr h

/-- C2: once a section heading is in the carried state, every Article
emitted by the rest of the scan (final flush included) carries that
`section_title` as long as no further sentence matches the section
pattern; a chapter heading leaves `sectionT` unchanged and clears
`paragraphT`; and `add_article_to_list` never changes any of the three
carried hierarchical fields. -/
theorem hierarchy_carry_over :
    (∀ (st : SegState) (sents : List String) (sec : String),
        st.sectionT = some sec → sec ≠ "" →
        (∀ s ∈ sents, sectionGroup0 (pyStrip s).data = none) →
        ∀ a ∈ (add_article_to_list (sents.foldl stepSentence st)).articles,
          a ∈ st.articles ∨ a.section_title = some sec) ∧
    (∀ (st : SegState) (raw : String) (g0 : List Char),
        pyStrip raw ≠ "" →
        sectionGroup0 (pyStrip raw).data = none →
        chapterGroup0 (pyStrip raw).data = some g0 →
        (stepSentence st raw).sectionT = st.sectionT ∧
        (stepSentence st raw).paragraphT = none) ∧
    (∀ st : SegState,
        (add_article_to_list st).sectionT = st.sectionT ∧
        (add_article_to_list st).chapterT = st.chapterT ∧
        (add_article_to_list st).paragraphT = st.paragraphT) := by
  refine ⟨?_, ?_, add_article_hier⟩
  · intro st sents sec h1 h2 h3 a ha
    have hfold := foldl_section_carry sents st sec h1 h2 h3
    rcases add_article_articles_carry (sents.foldl stepSentence st) a ha with h | h
    · exact hfold.2 a h
    · right
      rw [h, hfold.1]
      simp [optTruthy, h2]
  · intro st raw g0 hne hsec hch
    have h := add_article_hier st
    simp only [stepSentence, if_neg hne, hsec, hch]
    exact ⟨h.1, trivial⟩

/-- C3: the five-sentence scenario of the spec yields exactly the two
expected Articles, both carrying the section title, with the expected
article titles; each article's content contains its body sentence. -/
theorem scenario_two_articles :
    segment_into_articles
        ["Раздел 1. Общие положения.", "Статья 1. Предмет регулирования.",
         "Закон регулирует отношения.", "Статья 2. Основные понятия.",
         "Используются следующие понятия."] =
      [{ article_title := "Статья 1. Предмет регулирования."
       , content := "Статья 1. Предмет регулирования.\nЗакон регулирует отношения."
       , section_title := some "Раздел 1. Общие положения." },
       { article_title := "Статья 2. Основные понятия."
       , content := "Статья 2. Основные понятия.\nИспользуются следующие понятия."
       , section_title := some "Раздел 1. Общие положения." }] ∧
    "Закон регулирует отношения.".data.IsInfix
      "Статья 1. Предмет регулирования.\nЗакон регулирует отношения.".data ∧
    "Используются следующие понятия.".data.IsInfix
      "Статья 2. Основные понятия.\nИспользуются следующие понятия.".data := by
  refine ⟨by decide, ?_, ?_⟩
  · exact ⟨"Статья 1. Предмет регулирования.\n".data, [], by decide⟩
  · exact ⟨"Статья 2. Основные понятия.\n".data, [], by decide⟩

/-! ## `extract_keywords_and_topic` (processor.py lines 135-176)

The spaCy tokenizer/lemmatizer is external: a token arrives with its
surface text, lemma and the three classifier flags, for both the article
content and the article title. -/

structure Token where
  text : String
  lemma_ : String
  is_stop : Bool
  is_punct : Bool
  like_num : Bool

/-- The shared filter `not is_stop and not is_punct and not like_num`. -/
def tokenKeep (t : Token) : Bool := !t.is_stop && !t.is_punct && !t.like_num

/-- `title_tokens`: lower-cased lemma of every filtered title token (the
source builds a Python set; only membership is consumed, so the
enumeration list serves). -/
def titleLemmaList (titleToks : List Token) : List String :=
  (titleToks.filter tokenKeep).map (fun t => pyLower t.lemma_)

/-- Content lemmas surviving the filter, the `text.strip()` guard and the
title-lemma exclusion, in stream order. -/
def candidateList (docToks : List Token) (title_tokens : List String) : List String :=
  docToks.filterMap (fun t =>
    if tokenKeep t && (pyStrip t.text != "") then
      if title_tokens.contains (pyLower t.lemma_) then none
      else some (pyLower t.lemma_)
    else none)

/-- One `candidates[lemma] += 1` on a `collections.Counter` represented
as an insertion-ordered association list. -/
def bumpCount : List (String × Nat) → String → List (String × Nat)
  | [], s => [(s, 1)]
  | (k, n) :: rest, s =>
    if k = s then (k, n + 1) :: rest else (k, n) :: bumpCount rest s

def counterOf (ls : List String) : List (String × Nat) := ls.foldl bumpCount []

/-- `Counter.most_common()` sorts by descending count, keeping insertion
order among equal counts (Python's sort is stable): a stable insertion
sort. -/
def insertDesc (p : String × Nat) : List (String × Nat) → List (String × Nat)
  | [] => [p]
  | q :: rest => if q.2 < p.2 then p :: q :: rest else q :: insertDesc p rest

def mostCommon : List (String × Nat) → List (String × Nat)
  | [] => []
  | p :: rest => insertDesc p (mostCommon rest)

/-- `extract_keywords_and_topic` (`num_keywords` defaults to 7 at the
Python call sites). -/
def extract_keywords_and_topic (docToks titleToks : List Token)
    (num_keywords : Nat) : List String × String :=
  let title_tokens := titleLemmaList titleToks
  let candidates := counterOf (candidateList docToks title_tokens)
  let filtered := (mostCommon candidates).filterMap (fun p =>
    if 2 < p.1.length && !title_tokens.contains p.1 then some p.1 else none)
  let keywords := filtered.take num_keywords
  (keywords, keywords.headD "Общее положение")

/-! ## Facts about the keyword pipeline (claim C4) -/

theorem bumpCount_keys (s : String) (acc : List (String × Nat)) :
    (bumpCount acc s).map Prod.fst =
      if s ∈ acc.map Prod.fst then acc.map Prod.fst
      else acc.map Prod.fst ++ [s] := by
  induction acc with
  | nil => simp [bumpCount]
  | cons p rest ih =>
    obtain ⟨k, n⟩ := p
    simp only [bumpCount, List.map_cons]
    by_cases hk : k = s
    · subst hk
      simp
    · rw [if_neg hk, List.map_cons, ih]
      by_cases hm : s ∈ rest.map Prod.fst
      · rw [if_pos hm, if_pos (by simp [hm])]
      · rw [if_neg hm,
          if_neg (by simp only [List.mem_cons, not_or]; exact ⟨fun h => hk h.symm, hm⟩),
          List.cons_append]

theorem counterOf_keys_nodup (ls : List String) :
    ((counterOf ls).map Prod.fst).Nodup := by
  suffices h : ∀ acc : List (String × Nat), (acc.map Prod.fst).Nodup →
      ((ls.foldl bumpCount acc).map Prod.fst).Nodup by
    exact h [] (by simp)
  induction ls with
  | nil => intro acc h; simpa [counterOf] using h
  | cons s rest ih =>
    intro acc h
    simp only [List.foldl_cons]
    apply ih
    rw [bumpCount_keys]
    by_cases hm : s ∈ acc.map Prod.fst
    · rwa [if_pos hm]
    · rw [if_neg hm]
      exact h.append (List.nodup_singleton s)
        (by simpa [List.disjoint_singleton] using hm)

theorem insertDesc_perm (p : String × Nat) (l : List (String × Nat)) :
    (insertDesc p l).Perm (p :: l) := by
  induction l with
  | nil => simp [insertDesc]
  | cons q rest ih =>
    simp only [insertDesc]
    by_cases h : q.2 < p.2
    · rw [if_pos h]
    · rw [if_neg h]
      exact (ih.cons q).trans (List.Perm.swap p q rest)

theorem mostCommon_perm (l : List (String × Nat)) : (mostCommon l).Perm l := by
  induction l with
  | nil => simp [mostCommon]
  | cons p rest ih => exact (insertDesc_perm p (mostCommon rest)).trans (ih.cons p)

theorem filterMap_if_fst (q : String × Nat → Bool) (l : List (String × Nat)) :
    l.filterMap (fun p => if q p then some p.1 else none) =
      (l.filter q).map Prod.fst := by
  induction l with
  | nil => rfl
  | cons p rest ih =>
    simp only [List.filterMap_cons, List.filter_cons]
    by_cases h : q p = true
    · rw [if_pos h, if_pos h, List.map_cons, ih]
    · rw [if_neg h, if_neg h, ih]

/-- C4: the keyword list has at most `num_keywords` entries, its entries
are pairwise distinct, each is longer than 2 characters, and none occurs
among the title's filtered lemmas. -/
theorem keywords_bounded_distinct :
    ∀ (docToks titleToks : List Token) (num_keywords : Nat),
      (extract_keywords_and_topic docToks titleToks num_keywords).1.length ≤ num_keywords ∧
      (extract_keywords_and_topic docToks titleToks num_keywords).1.Nodup ∧
      ∀ w ∈ (extract_keywords_and_topic docToks titleToks num_keywords).1,
        2 < w.length ∧ w ∉ titleLemmaList titleToks := by
  intro docToks titleToks k
  unfold extract_keywords_and_topic
  simp only [filterMap_if_fst]
  refine ⟨List.length_take_le k _, ?_, ?_⟩
  · have h1 : ((counterOf (candidateList docToks (titleLemmaList titleToks))).map
        Prod.fst).Nodup := counterOf_keys_nodup _
    have h2 : ((mostCommon (counterOf (candidateList docToks
        (titleLemmaList titleToks)))).map Prod.fst).Nodup :=
      (((mostCommon_perm _).map Prod.fst).nodup_iff).mpr h1
    exact (h2.sublist ((List.filter_sublist _).map Prod.fst)).sublist
      (List.take_sublist _ _)
  · intro w hw
    have hw1 := List.mem_of_mem_take hw
    obtain ⟨p, hp, hpe⟩ := List.mem_map.mp hw1
    have hq := (List.mem_filter.mp hp).2
    rw [Bool.and_eq_true_iff] at hq
    subst hpe
    refine ⟨by simpa using hq.1, ?_⟩
    have := hq.2
    simp only [Bool.not_eq_eq_eq_not, Bool.not_true] at this
    simpa using this

/-! ## Filename synthesis (processor.py lines 202-222 and 276-323) -/

/-- The characters `re.sub(r'[\\/:*?"<>|]', '', text)` removes. -/
def badFileChar (c : Char) : Bool :=
  c = '\\' || c = '/' || c = ':' || c = '*' || c = '?' || c = '"' ||
    c = '<' || c = '>' || c = '|'

/-- `sanitize_string_for_filename` at the character level: drop unsafe
characters, replace spaces by underscores, strip, truncate. -/
def sanitizeChars (l : List Char) (maxLength : Nat) : List Char :=
  (stripChars ((l.filter (fun c => !badFileChar c)).map
    (fun c => if c = ' ' then '_' else c))).take maxLength

/-- `sanitize_string_for_filename` (default `max_length=200` is written
explicitly at every call site below). -/
def sanitize_string_for_filename (text : String) (maxLength : Nat) : String :=
  ⟨sanitizeChars text.data maxLength⟩

/-- `re.search(r'(prefix\s*\d+(?:\.\d+)*)', ...)` tried at one start
position: the captured group on success. -/
def structIdAt (kw l : List Char) : Option (List Char) :=
  match matchKeyword kw l with
  | none => none
  | some l1 =>
    let l2 := l1.dropWhile pyIsSpace
    if (l2.takeWhile isDigitChar).isEmpty then none
    else
      let l3 := dottedTail (l2.dropWhile isDigitChar)
      some (l.take (l.length - l3.length))

/-- `re.search`: the leftmost start position that matches wins. -/
def searchStructId (kw : List Char) : List Char → Option (List Char)
  | [] => none
  | c :: rest =>
    match structIdAt kw (c :: rest) with
    | some g => some g
    | none => searchStructId kw rest

/-- `get_structure_filename_id`. -/
def get_structure_filename_id (title pre : String) (maxLength : Nat) : String :=
  match searchStructId pre.data title.data with
  | some g => sanitize_string_for_filename ⟨g⟩ maxLength
  | none => ""

/-- `re.sub(r'^\s*Статья\s*\d+(?:\.\d+)*\.?\s*', '', full_article_title,
flags=re.IGNORECASE).strip()`. -/
def descriptive_title_raw (title : String) : String :=
  match matchKeyword "Статья".data (title.data.dropWhile pyIsSpace) with
  | none => ⟨stripChars title.data⟩
  | some l1 =>
    let l2 := l1.dropWhile pyIsSpace
    if (l2.takeWhile isDigitChar).isEmpty then ⟨stripChars title.data⟩
    else ⟨stripChars ((optDot (dottedTail (l2.dropWhile isDigitChar))).dropWhile pyIsSpace)⟩

/-- `"_".join` at the character level. -/
def joinUnd : List (List Char) → List Char
  | [] => []
  | [p] => p
  | p :: ps => p ++ '_' :: joinUnd ps

/-- `"_".join(sanitize_string_for_filename(k, max_length=20) for k in
keywords[:2])`. -/
def keywordSegment (kws : List String) : String :=
  ⟨joinUnd ((kws.take 2).map (fun k => sanitizeChars k.data 20))⟩

/-- The `filename_parts` list assembled in `save_articles_to_markdown`
for one article; absent metadata keys read as `""`, and a part is
appended under the same truthiness conditions as the source. -/
def filenameParts (a : Article) (docNamePart : String) : List String :=
  [docNamePart]
  ++ (if (a.section_title.getD "") != "" then
        [get_structure_filename_id (a.section_title.getD "") "Раздел" 50] else [])
  ++ (if (a.chapter_title.getD "") != "" then
        [get_structure_filename_id (a.chapter_title.getD "") "Глава" 50] else [])
  ++ (if (a.paragraph_title.getD "") != "" then
        [get_structure_filename_id (a.paragraph_title.getD "") "§" 50] else [])
  ++ (if get_structure_filename_id a.article_title "Статья" 50 != "" then
        [get_structure_filename_id a.article_title "Статья" 50] else [])
  ++ (if descriptive_title_raw a.article_title != "" then
        (if sanitize_string_for_filename (descriptive_title_raw a.article_title) 50 != "" then
          [sanitize_string_for_filename (descriptive_title_raw a.article_title) 50]
        else [])
      else [])
  ++ (if !a.keywords.isEmpty then
        (if keywordSegment a.keywords != "" then [keywordSegment a.keywords] else [])
      else [])

/-- `filename = "_".join(filter(None, filename_parts)) + ".md"`. -/
def assembleFilename (a : Article) (doc_base_name : String) : String :=
  ⟨joinUnd (((filenameParts a (sanitize_string_for_filename doc_base_name 40)).filter
      (fun s => s != "")).map String.data) ++ ".md".data⟩

/-- Split a character list at its last dot: `some (before, dot :: after)`
when a dot exists. -/
def splitLastDot : List Char → Option (List Char × List Char)
  | [] => none
  | c :: rest =>
    match splitLastDot rest with
    | some (b, a) => some (c :: b, a)
    | none => if c = '.' then some ([], '.' :: rest) else none

/-- The characters after the last `/` (the whole list when none). -/
def afterLastSlash (l : List Char) : List Char :=
  (l.reverse.takeWhile (fun c => c != '/')).reverse

/-- `os.path.splitext` on a posix path: split at the last dot, unless
that dot lies before the last separator or belongs to the leading run of
dots of the basename. -/
def pySplitextData (l : List Char) : List Char × List Char :=
  match splitLastDot l with
  | none => (l, [])
  | some (b, a) =>
    if a.contains '/' then (l, [])
    else if (afterLastSlash b).all (fun c => c == '.') then (l, [])
    else (b, a)

/-- The filename written for one article (processor.py lines 318-323):
the assembled name, truncated to 200 characters preserving the extension
when too long. -/
def synthesizeFilename (a : Article) (doc_base_name : String) : String :=
  let filename := assembleFilename a doc_base_name
  if 200 < filename.length then
    let be := pySplitextData filename.data
    ⟨be.1.take (200 - be.2.length) ++ be.2⟩
  else filename

/-! ## Facts about filename synthesis (claim C5) -/

theorem mk_data (l : List Char) : (⟨l⟩ : String).data = l := rfl

theorem mk_length (l : List Char) : (⟨l⟩ : String).length = l.length := rfl

theorem stripChars_subset (l : List Char) : stripChars l ⊆ l := by
  intro c hc
  unfold stripChars at hc
  rw [List.mem_reverse] at hc
  have h1 := List.dropWhile_subset (p := pyIsSpace) hc
  rw [List.mem_reverse] at h1
  exact List.dropWhile_subset (p := pyIsSpace) h1

theorem sanitizeChars_length_le (l : List Char) (m : Nat) :
    (sanitizeChars l m).length ≤ m :=
  List.length_take_le _ _

theorem sanitizeChars_no_slash (l : List Char) (m : Nat) :
    '/' ∉ sanitizeChars l m := by
  intro h
  have h1 := List.mem_of_mem_take h
  have h2 := stripChars_subset _ h1
  obtain ⟨c, hc, he⟩ := List.mem_map.mp h2
  have hf := List.of_mem_filter hc
  by_cases hsp : c = ' '
  · rw [if_pos hsp] at he
    exact absurd he (by decide)
  · rw [if_neg hsp] at he
    subst he
    simp [badFileChar] at hf

theorem gsfi_bound (title pre : String) :
    (get_structure_filename_id title pre 50).length ≤ 50 ∧
    '/' ∉ (get_structure_filename_id title pre 50).data := by
  unfold get_structure_filename_id
  cases searchStructId pre.data title.data with
  | none => exact ⟨by decide, by decide⟩
  | some g => exact ⟨sanitizeChars_length_le g 50, sanitizeChars_no_slash g 50⟩

theorem mem_joinUnd {c : Char} :
    ∀ {ps : List (List Char)}, c ∈ joinUnd ps → c = '_' ∨ ∃ p ∈ ps, c ∈ p := by
  intro ps
  induction ps with
  | nil => intro h; simp [joinUnd] at h
  | cons p ps ih =>
    cases ps with
    | nil =>
      intro h
      exact Or.inr ⟨p, List.mem_cons_self p [], by simpa [joinUnd] using h⟩
    | cons q qs =>
      intro h
      simp only [joinUnd] at h
      rcases List.mem_append.mp h with h | h
      · exact Or.inr ⟨p, List.mem_cons_self p (q :: qs), h⟩
      · rcases List.mem_cons.mp h with h | h
        · exact Or.inl h
        · rcases ih h with h | ⟨r, hr, hcr⟩
          · exact Or.inl h
          · exact Or.inr ⟨r, List.mem_cons_of_mem p hr, hcr⟩

theorem keywordSegment_bound (kws : List String) :
    (keywordSegment kws).length ≤ 41 ∧ '/' ∉ (keywordSegment kws).data := by
  unfold keywordSegment
  cases kws with
  | nil => exact ⟨by simp [joinUnd], by simp [joinUnd]⟩
  | cons k1 rest =>
    cases rest with
    | nil =>
      rw [mk_length, mk_data]
      constructor
      · simpa [joinUnd] using (sanitizeChars_length_le k1.data 20).trans (by omega)
      · simpa [joinUnd] using sanitizeChars_no_slash k1.data 20
    | cons k2 rest2 =>
      rw [mk_length, mk_data]
      have htake : (k1 :: k2 :: rest2).take 2 = [k1, k2] := rfl
      rw [htake]
      constructor
      · have h1 := sanitizeChars_length_le k1.data 20
        have h2 := sanitizeChars_length_le k2.data 20
        simp only [List.map_cons, List.map_nil, joinUnd, List.length_append,
          List.length_cons]
        omega
      · intro hmem
        rcases mem_joinUnd hmem with h | ⟨r, hr, hcr⟩
        · exact absurd h (by decide)
        · simp only [List.map_cons, List.map_nil, List.mem_cons,
            List.not_mem_nil, or_false] at hr
          rcases hr with hr | hr <;> subst hr
          · exact sanitizeChars_no_slash k1.data 20 hcr
          · exact sanitizeChars_no_slash k2.data 20 hcr

theorem filenameParts_bound (a : Article) (doc : String) :
    ∀ p ∈ filenameParts a (sanitize_string_for_filename doc 40),
      p.length ≤ 50 ∧ '/' ∉ p.data := by
  intro p hp
  unfold filenameParts at hp
  simp only [List.append_assoc, List.mem_append, List.mem_singleton] at hp
  rcases hp with hp | hp | hp | hp | hp | hp | hp
  · subst hp
    exact ⟨(sanitizeChars_length_le doc.data 40).trans (by omega),
      sanitizeChars_no_slash doc.data 40⟩
  · rcases List.mem_ite_nil_right.mp hp with ⟨-, hp⟩
    rw [List.mem_singleton.mp hp]
    exact gsfi_bound _ _
  · rcases List.mem_ite_nil_right.mp hp with ⟨-, hp⟩
    rw [List.mem_singleton.mp hp]
    exact gsfi_bound _ _
  · rcases List.mem_ite_nil_right.mp hp with ⟨-, hp⟩
    rw [List.mem_singleton.mp hp]
    exact gsfi_bound _ _
  · rcases List.mem_ite_nil_right.mp hp with ⟨-, hp⟩
    rw [List.mem_singleton.mp hp]
    exact gsfi_bound _ _
  · rcases List.mem_ite_nil_right.mp hp with ⟨-, hp⟩
    rcases List.mem_ite_nil_right.mp hp with ⟨-, hp⟩
    rw [List.mem_singleton.mp hp]
    exact ⟨sanitizeChars_length_le _ 50, sanitizeChars_no_slash _ 50⟩
  · rcases List.mem_ite_nil_right.mp hp with ⟨-, hp⟩
    rcases List.mem_ite_nil_right.mp hp with ⟨-, hp⟩
    rw [List.mem_singleton.mp hp]
    exact (keywordSegment_bound a.keywords).imp (fun h => h.trans (by omega)) id

theorem splitLastDot_of_no_dot :
    ∀ {s : List Char}, '.' ∉ s → splitLastDot s = none := by
  intro s
  induction s with
  | nil => intro _; rfl
  | cons c rest ih =>
    intro h
    simp only [List.mem_cons, not_or] at h
    simp only [splitLastDot, ih h.2]
    rw [if_neg (fun he => h.1 he.symm)]

theorem splitLastDot_append {s : List Char} (hs : '.' ∉ s) (t : List Char) :
    splitLastDot (t ++ '.' :: s) = some (t, '.' :: s) := by
  induction t with
  | nil =>
    simp only [List.nil_append, splitLastDot, splitLastDot_of_no_dot hs]
    simp
  | cons c t ih =>
    simp only [List.cons_append, splitLastDot, List.append_eq, ih]

theorem afterLastSlash_of_no_slash {l : List Char} (h : '/' ∉ l) :
    afterLastSlash l = l := by
  unfold afterLastSlash
  rw [List.takeWhile_eq_self_iff.mpr, List.reverse_reverse]
  intro c hc
  rw [List.mem_reverse] at hc
  simp only [bne_iff_ne, ne_eq]
  intro he
  exact h (he ▸ hc)

theorem pySplitextData_md {t : List Char} (hu : '_' ∈ t) (hs : '/' ∉ t) :
    pySplitextData (t ++ ".md".data) = (t, ".md".data) := by
  have hsplit : splitLastDot (t ++ ".md".data) = some (t, ".md".data) :=
    splitLastDot_append (by decide) t
  have h1 : (".md".data.contains '/') = false := by decide
  have h2 : ((afterLastSlash t).all fun c => c == '.') = false := by
    rw [afterLastSlash_of_no_slash hs]
    cases hb : (t.all fun c => c == '.') with
    | false => rfl
    | true => exact absurd (List.all_eq_true.mp hb '_' hu) (by decide)
  unfold pySplitextData
  rw [hsplit]
  simp [h1, h2]

/-- In a join of parts not longer than 50 characters that exceeds 197
characters, at least two parts were joined, so a separating underscore is
present. -/
theorem joinUnd_underscore {parts : List String}
    (hbound : ∀ p ∈ parts, p.length ≤ 50)
    (hbig : 197 < (joinUnd (parts.map String.data)).length) :
    '_' ∈ joinUnd (parts.map String.data) := by
  match parts with
  | [] => simp [joinUnd] at hbig
  | [x] =>
    have h1 := hbound x (List.mem_cons_self x [])
    have h2 : x.data.length = x.length := rfl
    simp only [List.map_cons, List.map_nil, joinUnd] at hbig
    omega
  | x :: y :: qs =>
    simp [joinUnd]

theorem joinUnd_no_slash {parts : List String}
    (hbound : ∀ p ∈ parts, '/' ∉ p.data) :
    '/' ∉ joinUnd (parts.map String.data) := by
  intro hsl
  rcases mem_joinUnd hsl with hc | ⟨r, hr, hcr⟩
  · exact absurd hc (by decide)
  · obtain ⟨p, hp, hpe⟩ := List.mem_map.mp hr
    exact hbound p hp (hpe ▸ hcr)

/-- C5: for every article and document base name, the synthesized
filename is at most 200 characters and ends in `.md`; whenever the
assembled name exceeds 200 characters, the truncated name is exactly 200
characters. -/
theorem filename_length_bounded :
    ∀ (a : Article) (doc_base_name : String),
      (synthesizeFilename a doc_base_name).length ≤ 200 ∧
      ".md".data.IsSuffix (synthesizeFilename a doc_base_name).data ∧
      (200 < (assembleFilename a doc_base_name).length →
        (synthesizeFilename a doc_base_name).length = 200) := by
  intro a doc
  unfold synthesizeFilename
  by_cases h : 200 < (assembleFilename a doc).length
  · rw [if_pos h]
    have hbound : ∀ p ∈ (filenameParts a (sanitize_string_for_filename doc 40)).filter
        (fun s => s != ""), p.length ≤ 50 ∧ '/' ∉ p.data := fun p hp =>
      filenameParts_bound a doc p (List.mem_of_mem_filter hp)
    have hdata : (assembleFilename a doc).data =
        joinUnd (((filenameParts a (sanitize_string_for_filename doc 40)).filter
          (fun s => s != "")).map String.data) ++ ".md".data := rfl
    have hlen : (assembleFilename a doc).length =
        (joinUnd (((filenameParts a (sanitize_string_for_filename doc 40)).filter
          (fun s => s != "")).map String.data)).length + 3 := by
      rw [show (assembleFilename a doc).length = (assembleFilename a doc).data.length
        from rfl, hdata, List.length_append]
      rfl
    have hbig : 197 < (joinUnd (((filenameParts a
        (sanitize_string_for_filename doc 40)).filter
          (fun s => s != "")).map String.data)).length := by omega
    have hu := joinUnd_underscore (fun p hp => (hbound p hp).1) hbig
    have hns := joinUnd_no_slash (fun p hp => (hbound p hp).2)
    rw [hdata, pySplitextData_md hu hns]
    have hmdlen : (".md".data).length = 3 := rfl
    have htk : ((joinUnd (((filenameParts a
        (sanitize_string_for_filename doc 40)).filter
          (fun s => s != "")).map String.data)).take
            (200 - (".md".data).length)).length = 197 := by
      rw [List.length_take, hmdlen]
      omega
    refine ⟨?_, ?_, fun _ => ?_⟩
    · rw [mk_length, List.length_append, htk, hmdlen]
    · exact ⟨_, rfl⟩
    · rw [mk_length, List.length_append, htk, hmdlen]
  · rw [if_neg h]
    have hdata : (assembleFilename a doc).data =
        joinUnd (((filenameParts a (sanitize_string_for_filename doc 40)).filter
          (fun s => s != "")).map String.data) ++ ".md".data := rfl
    exact ⟨Nat.le_of_not_lt h, ⟨_, hdata.symm⟩, fun hc => absurd hc h⟩

/-! ## `TextExtractor.extract_text` (extractors.py lines 45-66) -/

/-- Python `str.endswith`. -/
def pyEndsWith (s suffix : String) : Bool := suffix.data.isSuffixOf s.data

/-- `extract_text`: dispatch on the lower-cased path's suffix.  The two
binary readers (`extract_from_docx`, `extract_from_pdf`) are external
collaborators and enter as parameters; the `ValueError` branch becomes
`Except.error` with the source's message. -/
def extract_text (docxExtract pdfExtract : String → String) (file_path : String) :
    Except String String :=
  if pyEndsWith (pyLower file_path) ".docx" then Except.ok (docxExtract file_path)
  else if pyEndsWith (pyLower file_path) ".pdf" then Except.ok (pdfExtract file_path)
  else Except.error ("Unsupported file format: " ++ file_path)

/-- C8: `extract_text` fails with the unsupported-format error exactly
when the path, lower-cased, ends in neither `.docx` nor `.pdf`; for a
supported extension it returns the corresponding reader's text. -/
theorem extract_text_unsupported_iff :
    ∀ (docxExtract pdfExtract : String → String) (file_path : String),
      ((∃ e, extract_text docxExtract pdfExtract file_path = Except.error e) ↔
        ¬(".docx".data.IsSuffix (pyLower file_path).data ∨
          ".pdf".data.IsSuffix (pyLower file_path).data)) ∧
      (".docx".data.IsSuffix (pyLower file_path).data →
        extract_text docxExtract pdfExtract file_path =
          Except.ok (docxExtract file_path)) ∧
      (¬ ".docx".data.IsSuffix (pyLower file_path).data →
        ".pdf".data.IsSuffix (pyLower file_path).data →
        extract_text docxExtract pdfExtract file_path =
          Except.ok (pdfExtract file_path)) ∧
      (¬(".docx".data.IsSuffix (pyLower file_path).data ∨
          ".pdf".data.IsSuffix (pyLower file_path).data) →
        extract_text docxExtract pdfExtract file_path =
          Except.error ("Unsupported file format: " ++ file_path)) := by
  intro f g p
  unfold extract_text pyEndsWith
  by_cases h1 : ".docx".data.IsSuffix (pyLower p).data
  · rw [if_pos (List.isSuffixOf_iff_suffix.mpr h1)]
    refine ⟨⟨fun ⟨e, he⟩ => by simp at he, fun hc => absurd (Or.inl h1) hc⟩,
      fun _ => rfl, fun hnd _ => absurd h1 hnd, fun hc => absurd (Or.inl h1) hc⟩
  · rw [if_neg (fun hb => h1 (List.isSuffixOf_iff_suffix.mp hb))]
    by_cases h2 : ".pdf".data.IsSuffix (pyLower p).data
    · rw [if_pos (List.isSuffixOf_iff_suffix.mpr h2)]
      refine ⟨⟨fun ⟨e, he⟩ => by simp at he, fun hc => absurd (Or.inr h2) hc⟩,
        fun hd => absurd hd h1, fun _ _ => rfl, fun hc => absurd (Or.inr h2) hc⟩
    · rw [if_neg (fun hb => h2 (List.isSuffixOf_iff_suffix.mp hb))]
      refine ⟨⟨fun _ hor => ?_, fun _ => ⟨_, rfl⟩⟩,
        fun hd => absurd hd h1, fun _ hp => absurd hp h2, fun _ => rfl⟩
      rcases hor with hd | hp
      · exact h1 hd
      · exact h2 hp

/-! ## `save_articles_to_markdown` (processor.py lines 249-345)

The filesystem is external: each article's two write attempts (primary
name, fallback name) succeed or fail as the environment dictates, so the
loop takes one `(primaryOk, fallbackOk)` outcome pair per article and
returns the list of created file paths. -/

/-- `os.path.join(output_dir, filename)` for a relative filename. -/
def joinPath (dir filename : String) : String := dir ++ "/" ++ filename

/-- The fallback filename `f"{sanitized_doc_name_prefix}_Article_{i+1}.md"`. -/
def fallbackFilename (doc_base_name : String) (i : Nat) : String :=
  sanitize_string_for_filename doc_base_name 40 ++ "_Article_" ++ toString (i + 1) ++ ".md"

/-- The enumerated write loop of `save_articles_to_markdown`: primary
write, one fallback retry, `continue` when both fail. -/
def saveLoop (dir doc : String) : Nat → List (Article × Bool × Bool) → List String
  | _, [] => []
  | i, (a, pOk, fOk) :: rest =>
    if pOk then joinPath dir (synthesizeFilename a doc) :: saveLoop dir doc (i + 1) rest
    else if fOk then joinPath dir (fallbackFilename doc i) :: saveLoop dir doc (i + 1) rest
    else saveLoop dir doc (i + 1) rest

/-- `save_articles_to_markdown`, as the list of created file paths. -/
def save_articles_to_markdown (articles : List Article) (output_dir doc_base_name : String)
    (outcomes : List (Bool × Bool)) : List String :=
  saveLoop output_dir doc_base_name 0 (articles.zip outcomes)

theorem saveLoop_eq (dir doc : String) :
    ∀ (i : Nat) (l : List (Article × Bool × Bool)),
      saveLoop dir doc i l = (List.enumFrom i l).filterMap (fun x =>
        if x.2.2.1 then some (joinPath dir (synthesizeFilename x.2.1 doc))
        else if x.2.2.2 then some (joinPath dir (fallbackFilename doc x.1))
        else none) := by
  intro i l
  induction l generalizing i with
  | nil => rfl
  | cons x rest ih =>
    obtain ⟨a, pOk, fOk⟩ := x
    simp only [saveLoop, List.enumFrom, List.filterMap_cons]
    by_cases hp : pOk = true
    · rw [if_pos hp]
      simp only [hp, if_true, ih (i + 1)]
    · rw [if_neg hp]
      by_cases hf : fOk = true
      · rw [if_pos hf]
        simp only [Bool.not_eq_true] at hp
        simp [hp, hf, ih (i + 1)]
      · rw [if_neg hf]
        simp only [Bool.not_eq_true] at hp hf
        simp [hp, hf, ih (i + 1)]

/-- C9: the created-file list of `save_articles_to_markdown` is exactly
the per-article selection "primary path when the primary write succeeds,
else the fallback path `<sanitized doc_base_name>_Article_<i+1>.md` when
the single retry succeeds, else nothing" — a doubly-failed article is
skipped while the loop continues — and its length never exceeds the
number of articles. -/
theorem save_articles_fallback :
    ∀ (articles : List Article) (output_dir doc_base_name : String)
      (outcomes : List (Bool × Bool)),
      save_articles_to_markdown articles output_dir doc_base_name outcomes =
        (List.enumFrom 0 (articles.zip outcomes)).filterMap (fun x =>
          if x.2.2.1 then some (joinPath output_dir (synthesizeFilename x.2.1 doc_base_name))
          else if x.2.2.2 then some (joinPath output_dir (fallbackFilename doc_base_name x.1))
          else none) ∧
      (save_articles_to_markdown articles output_dir doc_base_name outcomes).length ≤
        articles.length := by
  intro articles dir doc outcomes
  refine ⟨saveLoop_eq dir doc 0 (articles.zip outcomes), ?_⟩
  unfold save_articles_to_markdown
  rw [saveLoop_eq]
  calc ((List.enumFrom 0 (articles.zip outcomes)).filterMap _).length
      ≤ (List.enumFrom 0 (articles.zip outcomes)).length :=
        List.length_filterMap_le _ _
    _ = (articles.zip outcomes).length := List.enumFrom_length
    _ ≤ articles.length := by rw [List.length_zip]; exact Nat.min_le_left _ _

/-! ## The job worker (main.py lines 97-166, 219-229)

The worker's effect on the job registry is embedded as the ordered trace
of `(status, progress, error, total_articles)` states it writes; message
writes touch none of these fields.  Each document's processing outcome and
the archive step's outcome are external inputs. -/

inductive JobStatus where
  | pending
  | processing
  | completed
  | failed
deriving DecidableEq

structure JobState where
  status : JobStatus
  progress : Nat
  error : Option String := none
  total_articles : Option Nat := none
deriving DecidableEq

/-- Outcome of `processor.process_document` for one file: the counts its
result dict carries, or the exception message it raises. -/
inductive DocResult where
  | ok (articles_count files_created : Nat)
  | fail (msg : String)
deriving DecidableEq

def articlesCount : DocResult → Nat
  | .ok ac _ => ac
  | .fail _ => 0

/-- The message of the first document failure, if any. -/
def firstFailure : List DocResult → Option String
  | [] => none
  | .ok _ _ :: rest => firstFailure rest
  | .fail m :: _ => some m

/-- `int((idx / len(file_paths)) * 90)` (exact rational floor; the float
round-trip of the source can only round a boundary value down by one,
which preserves every property claimed here). -/
def docProgress (n idx : Nat) : Nat := 90 * idx / n

/-- The per-document loop: one `progress` write per file, then the file
is processed; a raise aborts the loop.  Returns the registry states
written and either the accumulated `total_articles` or the failure
message paired with the progress at which it struck. -/
def runDocs (n : Nat) : Nat → Nat → List DocResult →
    List JobState × Except (String × Nat) Nat
  | _, total, [] => ([], Except.ok total)
  | idx, total, r :: rest =>
    let s : JobState := ⟨.processing, docProgress n idx, none, none⟩
    match r with
    | .fail m => ([s], Except.error (m, docProgress n idx))
    | .ok ac _ =>
      let res := runDocs n (idx + 1) (total + ac) rest
      (s :: res.1, res.2)

/-- The registry writes of the `except` handler (main.py lines 163-166):
status, error, progress — in source order. -/
def failTail (p : Nat) (m : String) : List JobState :=
  [⟨.failed, p, none, none⟩, ⟨.failed, p, some m, none⟩, ⟨.failed, 0, some m, none⟩]

/-- `process_documents_job` as the ordered trace of job-registry states:
the `Pending` state `upload_documents` writes, then every state the
worker writes. -/
def process_documents_job (docs : List DocResult) (archive : Except String Unit) :
    List JobState :=
  let r := runDocs docs.length 0 0 docs
  ⟨.pending, 0, none, none⟩ :: ⟨.processing, 0, none, none⟩ ::
    (match r.2 with
     | .error (m, p) => r.1 ++ failTail p m
     | .ok total =>
       r.1 ++ ⟨.processing, 95, none, none⟩ ::
         (match archive with
          | .error m => failTail 95 m
          | .ok _ =>
            [⟨.completed, 95, none, none⟩, ⟨.completed, 100, none, none⟩,
             ⟨.completed, 100, none, some total⟩]))

/-! ## Facts about the job trace (claims C6, C7, C10) -/

/-- One allowed registry write (claim C6): the status stays or follows
`Pending→Processing→{Completed, Failed}`, and while the pre-state is
non-terminal the progress does not decrease. -/
def jobStepOk (s t : JobState) : Prop :=
  (s.status = t.status ∨
   (s.status = .pending ∧ t.status = .processing) ∨
   (s.status = .processing ∧ (t.status = .completed ∨ t.status = .failed))) ∧
  (s.status ≠ .completed → s.status ≠ .failed → s.progress ≤ t.progress)

theorem docProgress_mono (n : Nat) {i j : Nat} (h : i ≤ j) :
    docProgress n i ≤ docProgress n j :=
  Nat.div_le_div_right (Nat.mul_le_mul_left 90 h)

theorem docProgress_le_90 {n j : Nat} (h : j < n) : docProgress n j ≤ 90 := by
  unfold docProgress
  have hn : 0 < n := Nat.lt_of_le_of_lt (Nat.zero_le j) h
  calc 90 * j / n ≤ 90 * n / n :=
        Nat.div_le_div_right (Nat.mul_le_mul_left 90 (Nat.le_of_lt h))
    _ = 90 := Nat.mul_div_cancel 90 hn

theorem runDocs_mem (n : Nat) :
    ∀ (docs : List DocResult) (idx total : Nat),
      ∀ s ∈ (runDocs n idx total docs).1,
        s.status = .processing ∧ s.error = none ∧ s.total_articles = none ∧
        ∃ j, idx ≤ j ∧ j < idx + docs.length ∧ s.progress = docProgress n j := by
  intro docs
  induction docs with
  | nil => intro idx total s hs; simp [runDocs] at hs
  | cons r rest ih =>
    intro idx total s hs
    cases r with
    | fail m =>
      simp only [runDocs, List.mem_singleton] at hs
      subst hs
      exact ⟨rfl, rfl, rfl, idx, Nat.le_refl idx, by simp, rfl⟩
    | ok ac fc =>
      simp only [runDocs, List.mem_cons] at hs
      rcases hs with hs | hs
      · subst hs
        exact ⟨rfl, rfl, rfl, idx, Nat.le_refl idx, by simp, rfl⟩
      · obtain ⟨h1, h2, h3, j, hj1, hj2, hj3⟩ := ih (idx + 1) (total + ac) s hs
        exact ⟨h1, h2, h3, j, Nat.le_of_succ_le hj1,
          by simp only [List.length_cons] at hj2 ⊢; omega, hj3⟩

theorem runDocs_head (n idx total : Nat) (r : DocResult) (rest : List DocResult) :
    (runDocs n idx total (r :: rest)).1.head? =
      some ⟨.processing, docProgress n idx, none, none⟩ := by
  cases r <;> rfl

theorem runDocs_chain (n : Nat) :
    ∀ (docs : List DocResult) (idx total : Nat),
      List.Chain' jobStepOk (runDocs n idx total docs).1 := by
  intro docs
  induction docs with
  | nil => intro idx total; simp [runDocs]
  | cons r rest ih =>
    intro idx total
    cases r with
    | fail m => simp [runDocs]
    | ok ac fc =>
      simp only [runDocs]
      refine List.chain'_cons'.mpr ⟨?_, ih (idx + 1) (total + ac)⟩
      intro y hy
      cases rest with
      | nil => simp [runDocs] at hy
      | cons r2 rest2 =>
        rw [runDocs_head] at hy
        simp only [Option.mem_def, Option.some.injEq] at hy
        subst hy
        exact ⟨Or.inl rfl, fun _ _ => docProgress_mono n (Nat.le_succ idx)⟩

theorem getLast?_cons_of_getLast? {α : Type} {l : List α} {v : α} (a : α)
    (h : l.getLast? = some v) : (a :: l).getLast? = some v := by
  cases l with
  | nil => simp at h
  | cons b t => rw [List.getLast?_cons_cons]; exact h

theorem getLast?_append_right {α : Type} {l l' : List α} {v : α}
    (h : l'.getLast? = some v) : (l ++ l').getLast? = some v := by
  rw [List.getLast?_append, h]
  rfl

theorem runDocs_error_last (n : Nat) :
    ∀ (docs : List DocResult) (idx total : Nat) (m : String) (p : Nat),
      (runDocs n idx total docs).2 = Except.error (m, p) →
      (runDocs n idx total docs).1.getLast? =
        some ⟨.processing, p, none, none⟩ := by
  intro docs
  induction docs with
  | nil => intro idx total m p h; simp [runDocs] at h
  | cons r rest ih =>
    intro idx total m p h
    cases r with
    | fail m2 =>
      simp only [runDocs, Except.error.injEq, Prod.mk.injEq] at h
      simp [runDocs, h.2]
    | ok ac fc =>
      simp only [runDocs] at h ⊢
      exact getLast?_cons_of_getLast? _ (ih (idx + 1) (total + ac) m p h)

theorem runDocs_ok (n : Nat) :
    ∀ (docs : List DocResult) (idx total : Nat), firstFailure docs = none →
      (runDocs n idx total docs).2 =
        Except.ok (total + (docs.map articlesCount).sum) := by
  intro docs
  induction docs with
  | nil => intro idx total _; simp [runDocs]
  | cons r rest ih =>
    intro idx total hff
    cases r with
    | fail m => simp [firstFailure] at hff
    | ok ac fc =>
      simp only [firstFailure] at hff
      simp only [runDocs, ih (idx + 1) (total + ac) hff, List.map_cons,
        List.sum_cons, articlesCount, Except.ok.injEq]
      omega

theorem runDocs_fail (n : Nat) :
    ∀ (docs : List DocResult) (idx total : Nat) (m : String),
      firstFailure docs = some m →
      ∃ p, (runDocs n idx total docs).2 = Except.error (m, p) := by
  intro docs
  induction docs with
  | nil => intro idx total m h; simp [firstFailure] at h
  | cons r rest ih =>
    intro idx total m h
    cases r with
    | fail m2 =>
      simp only [firstFailure, Option.some.injEq] at h
      subst h
      exact ⟨docProgress n idx, rfl⟩
    | ok ac fc =>
      simp only [firstFailure] at h
      obtain ⟨p, hp⟩ := ih (idx + 1) (total + ac) m h
      exact ⟨p, by simp only [runDocs]; exact hp⟩

theorem nonpending_step (y : JobState) (hy : y.status ≠ JobStatus.pending) :
    jobStepOk ⟨.processing, 0, none, none⟩ y := by
  refine ⟨?_, fun _ _ => Nat.zero_le _⟩
  cases hys : y.status with
  | pending => exact absurd hys hy
  | processing => exact Or.inl rfl
  | completed => exact Or.inr (Or.inr ⟨rfl, Or.inl rfl⟩)
  | failed => exact Or.inr (Or.inr ⟨rfl, Or.inr rfl⟩)

theorem failTail_chain (p : Nat) (m : String) :
    List.Chain' jobStepOk (failTail p m) :=
  List.chain'_cons.mpr ⟨⟨Or.inl rfl, fun _ hf => absurd rfl hf⟩,
    List.chain'_cons.mpr ⟨⟨Or.inl rfl, fun _ hf => absurd rfl hf⟩,
      List.chain'_singleton _⟩⟩

/-- The head-condition for hanging a suffix after the `Processing` write:
every element of the worker's continuation has a non-pending status. -/
theorem step_into_tail {docs : List DocResult} {X : List JobState}
    (hX : ∀ y ∈ X.head?, y.status ≠ JobStatus.pending) :
    ∀ y ∈ ((runDocs docs.length 0 0 docs).1 ++ X).head?,
      jobStepOk ⟨.processing, 0, none, none⟩ y := by
  intro y hy
  rw [List.head?_append] at hy
  cases htr : (runDocs docs.length 0 0 docs).1.head? with
  | some h =>
    rw [htr] at hy
    simp only [Option.or_some, Option.mem_def, Option.some.injEq] at hy
    rw [← hy]
    have hh : h ∈ (runDocs docs.length 0 0 docs).1 :=
      List.mem_of_mem_head? (by rw [htr]; rfl)
    have hm := runDocs_mem docs.length docs 0 0 h hh
    apply nonpending_step
    rw [hm.1]
    exact fun hc => JobStatus.noConfusion hc
  | none =>
    rw [htr] at hy
    simp only [Option.none_or] at hy
    exact nonpending_step y (hX y hy)

/-- C6: along every execution (submission, then the worker run), adjacent
registry states satisfy `jobStepOk`: the status only moves along
`Pending→Processing→{Completed, Failed}` and the progress never decreases
while the pre-state's status is non-terminal. -/
theorem job_status_progress_machine :
    ∀ (docs : List DocResult) (archive : Except String Unit),
      List.Chain' jobStepOk (process_documents_job docs archive) := by
  intro docs archive
  simp only [process_documents_job]
  cases hres : (runDocs docs.length 0 0 docs).2 with
  | error mp =>
    obtain ⟨m, p⟩ := mp
    show List.Chain' jobStepOk (⟨JobStatus.pending, 0, none, none⟩ ::
      ⟨JobStatus.processing, 0, none, none⟩ ::
      ((runDocs docs.length 0 0 docs).1 ++ failTail p m))
    refine List.chain'_cons.mpr
      ⟨⟨Or.inr (Or.inl ⟨rfl, rfl⟩), fun _ _ => Nat.le_refl 0⟩, ?_⟩
    refine List.chain'_cons'.mpr ⟨step_into_tail ?_, ?_⟩
    · intro y hy
      simp only [failTail, List.head?_cons, Option.mem_def, Option.some.injEq] at hy
      subst hy
      exact fun hc => JobStatus.noConfusion hc
    · refine List.Chain'.append (runDocs_chain _ _ _ _) (failTail_chain p m) ?_
      intro x hx y hy
      rw [runDocs_error_last docs.length docs 0 0 m p hres] at hx
      simp only [Option.mem_def, Option.some.injEq] at hx
      subst hx
      simp only [failTail, List.head?_cons, Option.mem_def, Option.some.injEq] at hy
      subst hy
      exact ⟨Or.inr (Or.inr ⟨rfl, Or.inr rfl⟩), fun _ _ => Nat.le_refl p⟩
  | ok total =>
    show List.Chain' jobStepOk (⟨JobStatus.pending, 0, none, none⟩ ::
      ⟨JobStatus.processing, 0, none, none⟩ ::
      ((runDocs docs.length 0 0 docs).1 ++ ⟨JobStatus.processing, 95, none, none⟩ ::
        (match archive with
         | .error m => failTail 95 m
         | .ok _ => [⟨JobStatus.completed, 95, none, none⟩,
                     ⟨JobStatus.completed, 100, none, none⟩,
                     ⟨JobStatus.completed, 100, none, some total⟩])))
    refine List.chain'_cons.mpr
      ⟨⟨Or.inr (Or.inl ⟨rfl, rfl⟩), fun _ _ => Nat.le_refl 0⟩, ?_⟩
    refine List.chain'_cons'.mpr ⟨step_into_tail ?_, ?_⟩
    · intro y hy
      simp only [List.head?_cons, Option.mem_def, Option.some.injEq] at hy
      subst hy
      exact fun hc => JobStatus.noConfusion hc
    · refine List.Chain'.append (runDocs_chain _ _ _ _) ?_ ?_
      · refine List.chain'_cons'.mpr ⟨?_, ?_⟩
        · intro y hy
          cases archive with
          | error m =>
            simp only [failTail, List.head?_cons, Option.mem_def,
              Option.some.injEq] at hy
            subst hy
            exact ⟨Or.inr (Or.inr ⟨rfl, Or.inr rfl⟩), fun _ _ => Nat.le_refl 95⟩
          | ok u =>
            simp only [List.head?_cons, Option.mem_def, Option.some.injEq] at hy
            subst hy
            exact ⟨Or.inr (Or.inr ⟨rfl, Or.inl rfl⟩), fun _ _ => Nat.le_refl 95⟩
        · cases archive with
          | error m => exact failTail_chain 95 m
          | ok u =>
            exact List.chain'_cons.mpr ⟨⟨Or.inl rfl, fun hc _ => absurd rfl hc⟩,
              List.chain'_cons.mpr ⟨⟨Or.inl rfl, fun hc _ => absurd rfl hc⟩,
                List.chain'_singleton _⟩⟩
      · intro x hx y hy
        simp only [List.head?_cons, Option.mem_def, Option.some.injEq] at hy
        subst hy
        obtain ⟨hst, -, -, j, -, hj2, hpr⟩ := runDocs_mem docs.length docs 0 0 x
          (List.mem_of_mem_getLast? hx)
        refine ⟨Or.inl (by rw [hst]), fun _ _ => ?_⟩
        rw [hpr]
        have hle : docProgress docs.length j ≤ 90 := docProgress_le_90 (by omega)
        exact hle.trans (by decide)

/-- C7: whenever a stage fails — a document raises during processing, or
the archive step raises after all documents — the job's final registry
state is `Failed` with progress 0 and the failure's message (non-empty
for every exception the pipeline raises) recorded in `error`. -/
theorem job_failure_terminal :
    ∀ (docs : List DocResult) (archive : Except String Unit) (m : String),
      (firstFailure docs = some m ∨
        (firstFailure docs = none ∧ archive = Except.error m)) →
      m ≠ "" →
      (process_documents_job docs archive).getLast? =
        some ⟨.failed, 0, some m, none⟩ ∧ m ≠ "" := by
  intro docs archive m hfail hm
  refine ⟨?_, hm⟩
  simp only [process_documents_job]
  rcases hfail with hf | ⟨hn, ha⟩
  · obtain ⟨p, hp⟩ := runDocs_fail docs.length docs 0 0 m hf
    rw [hp]
    exact getLast?_cons_of_getLast? _ (getLast?_cons_of_getLast? _
      (getLast?_append_right rfl))
  · subst ha
    rw [runDocs_ok docs.length docs 0 0 hn]
    exact getLast?_cons_of_getLast? _ (getLast?_cons_of_getLast? _
      (getLast?_append_right rfl))

/-- Closed instance of `job_failure_terminal` at a one-document job whose
processing raises `boom`. -/
theorem job_failure_terminal_witness :
    (process_documents_job [DocResult.fail "boom"] (Except.ok ())).getLast? =
      some ⟨.failed, 0, some "boom", none⟩ ∧ "boom" ≠ "" :=
  job_failure_terminal [DocResult.fail "boom"] (Except.ok ()) "boom"
    (Or.inl rfl) (by decide)

/-- `process_document` (processor.py lines 347-382) reported counts:
`articles_count` is the number of segmented articles, `files_created` the
number of markdown files actually written. -/
def process_document_counts (articles : List Article)
    (output_dir doc_base_name : String) (outcomes : List (Bool × Bool)) : Nat × Nat :=
  (articles.length,
   (save_articles_to_markdown articles output_dir doc_base_name outcomes).length)

/-- C10: `files_created ≤ articles_count` for every document; a job that
completes reports `total_articles` as the sum of `articles_count` over
its documents; and on a concrete document whose only article fails both
writes, `articles_count` exceeds the number of files written. -/
theorem total_articles_counts :
    (∀ (articles : List Article) (output_dir doc_base_name : String)
        (outcomes : List (Bool × Bool)),
      (process_document_counts articles output_dir doc_base_name outcomes).2 ≤
        (process_document_counts articles output_dir doc_base_name outcomes).1) ∧
    (∀ docs : List DocResult, firstFailure docs = none →
      (process_documents_job docs (Except.ok ())).getLast? =
        some ⟨.completed, 100, none, some ((docs.map articlesCount).sum)⟩) ∧
    ((process_document_counts
        [{ article_title := "Статья 1.", content := "Статья 1." }]
        "out" "doc" [(false, false)]).1 = 1 ∧
     (process_document_counts
        [{ article_title := "Статья 1.", content := "Статья 1." }]
        "out" "doc" [(false, false)]).2 = 0) := by
  refine ⟨?_, ?_, by decide, by decide⟩
  · intro articles dir doc outcomes
    exact (save_articles_fallback articles dir doc outcomes).2
  · intro docs hff
    simp only [process_documents_job]
    rw [runDocs_ok docs.length docs 0 0 hff]
    rw [Nat.zero_add]
    exact getLast?_cons_of_getLast? _ (getLast?_cons_of_getLast? _
      (getLast?_append_right rfl))

end LDS
